import Mathlib

/-!
Verification of the in-application search engine of the Notebook repository
(source: the search modal component, `src/unnamed/part_003`).

The engine's pure core is shallowly embedded below:
* `normalize`, `fuzzyScore`, `buildSnippet` — the Matcher (lines 44, 61-82, 84-95);
* `extension`, `nameStage`, `namePathCoversAll`, `tokenLoop`, `contentStage`,
  `scanStep` — the per-file worker body (lines 192-275);
* `scanBuffer`, `searchResults` — a completed session's result buffer and the
  final sorted, truncated list (lines 168-289);
* `queryEffect` — the query-controller effect for query changes (lines 149-167
  plus the effect cleanup at lines 295-297);
* `ctrlStep`/`ctrlRun` — the generation-tagged callback discipline of the
  controller (lines 158-159, 184, 280), as an explicit event system.

JavaScript strings are modelled as Lean `String`/`List Char`.  JS numbers are
modelled exactly: the name/path scoring stage only ever produces integers, so
it is carried in `ℤ`; a result's final score is `ℚ` because the content stage
adds the fractional positional penalty `contentMatchIndex * 0.02`.  String
helpers (`trim`, `split`, lowercasing) are implemented on `List Char` by
structural recursion so that every definition evaluates by kernel reduction.
A file's readable content is `Option String` (`none` models a read that
throws, the catch block of lines 238-240).
-/

namespace NotebookSearch

/-- Constant `MAX_RESULTS` (line 32). -/
def MAX_RESULTS : ℕ := 200

/-- Constant `MAX_MATCHES_PER_FILE` (line 33). -/
def MAX_MATCHES_PER_FILE : ℕ := 3

/-- Constant `CONTEXT_RADIUS` (line 34). -/
def CONTEXT_RADIUS : ℕ := 40

/-- Constant `CONTENT_SEARCH_MIN_CHARS` (line 36). -/
def CONTENT_SEARCH_MIN_CHARS : ℕ := 2

/-- Constant `SKIP_EXTENSIONS` (lines 39-42). -/
def SKIP_EXTENSIONS : List String :=
  ["png", "jpg", "jpeg", "gif", "pdf", "ico", "svg", "webp",
   "mp4", "mov", "avi", "mkv", "zip", "rar", "7z", "exe", "dll"]

/-- Function `normalize` (line 44): `value.toLowerCase()`, per character. -/
def normalize (s : String) : String := ⟨s.data.map Char.toLower⟩

/-- JS `String.prototype.trim`: strip whitespace from both ends. -/
def trimStr (s : String) : String :=
  ⟨((s.data.dropWhile Char.isWhitespace).reverse.dropWhile Char.isWhitespace).reverse⟩

/-- Splitting helper: cut `l` at every character satisfying `p` (JS
`String.prototype.split`, empty pieces included). -/
def splitByAux (p : Char → Bool) : List Char → List Char → List (List Char)
  | [], acc => [acc.reverse]
  | c :: rest, acc =>
    if p c then acc.reverse :: splitByAux p rest [] else splitByAux p rest (c :: acc)

/-- JS `s.split(sep-matching-p)`. -/
def splitBy (p : Char → Bool) (l : List Char) : List (List Char) := splitByAux p l []

structure MatchSnippet where
  text : String
  highlights : List (ℕ × ℕ)
deriving DecidableEq

inductive MatchType
  | name
  | path
  | content
deriving DecidableEq

structure SearchResult where
  path : String
  name : String
  score : ℚ
  «matches» : List MatchSnippet
  matchType : MatchType
deriving DecidableEq

/-- A flat file entry together with what the external content reader would
return for it (`none` models a read that throws). -/
structure FileEntry where
  path : String
  name : String
  content : Option String
deriving DecidableEq

/-- Does `pat` occur at the very beginning of `t`?  (Helper for JS
`String.prototype.indexOf` with a string argument.) -/
def begMatch : List Char → List Char → Bool
  | [], _ => true
  | _ :: _, [] => false
  | c :: ps, a :: ts => a == c && begMatch ps ts

/-- JS `t.indexOf(pat)` for a string pattern: index of the first occurrence of
`pat` as a contiguous substring of `t`, if any. -/
def idxOfSub : List Char → List Char → Option ℕ
  | [], pat => if begMatch pat [] then some 0 else none
  | a :: rest, pat =>
    if begMatch pat (a :: rest) then some 0 else (idxOfSub rest pat).map (· + 1)

/-- JS `t.includes(pat)` (lines 197-198). -/
def includesL (t pat : List Char) : Bool := (idxOfSub t pat).isSome

/-- Index of the first occurrence of character `c` in `l`, if any. -/
def charIdx (c : Char) : List Char → Option ℕ
  | [] => none
  | a :: rest => if a == c then some 0 else (charIdx c rest).map (· + 1)

/-- JS `t.indexOf(c, start)` for a single character `c` (line 68). -/
def indexOfFrom (t : List Char) (c : Char) (start : ℕ) : Option ℕ :=
  (charIdx c (t.drop start)).map (· + start)

/-- The character-walk loop of `fuzzyScore` (lines 66-78): for each query
character, find its next occurrence at or after the cursor; a hit at the
cursor extends the streak and adds `10 + streak * 2` (with the incremented
streak), a hit after a gap resets the streak and adds `max 1 (6 - gap)`; a
miss aborts with `none`. -/
def fuzzyGo (t : List Char) : List Char → ℕ → ℕ → ℤ → Option ℤ
  | [], _, _, score => some score
  | c :: rest, tIndex, streak, score =>
    match indexOfFrom t c tIndex with
    | none => none
    | some found =>
      if found = tIndex then
        fuzzyGo t rest (found + 1) (streak + 1) (score + (10 + ((streak : ℤ) + 1) * 2))
      else
        fuzzyGo t rest (found + 1) 0 (score + max 1 (6 - ((found : ℤ) - (tIndex : ℤ))))

/-- Function `fuzzyScore(query, target)` (lines 61-82).  After a successful walk the
start bonus `max(0, 30 - target.indexOf(query[0]))` is added (line 80).  For
an empty query JS evaluates `target.indexOf(undefined)`, which coerces the
argument to the string "undefined" and searches for that; this quirk is kept
faithfully. -/
def fuzzyScore (q t : List Char) : Option ℤ :=
  match fuzzyGo t q 0 0 0 with
  | none => none
  | some s =>
    let firstIdx : ℤ :=
      match q with
      | [] =>
        match idxOfSub t ("undefined".data) with
        | some i => (i : ℤ)
        | none => -1
      | c :: _ =>
        match indexOfFrom t c 0 with
        | some i => (i : ℤ)
        | none => -1
    some (s + max 0 (30 - firstIdx))

/-- Function `buildSnippet(content, matchIndex, matchLength)` (lines 84-95).  Natural
subtraction `matchIndex - CONTEXT_RADIUS` coincides with the source's
`Math.max(0, matchIndex - CONTEXT_RADIUS)`. -/
def buildSnippet (content : String) (matchIndex matchLength : ℕ) : MatchSnippet :=
  let start := matchIndex - CONTEXT_RADIUS
  let stop := min content.data.length (matchIndex + matchLength + CONTEXT_RADIUS)
  let pre : List Char := if 0 < start then "...".data else []
  let suf : List Char := if stop < content.data.length then "...".data else []
  let text := pre ++ (content.data.drop start).take (stop - start) ++ suf
  let highlightStart := pre.length + (matchIndex - start)
  { text := ⟨text⟩
    highlights := [(highlightStart, highlightStart + matchLength)] }

/-- Extension extraction `file.name.split('.').pop()?.toLowerCase() || ''` (line 192). -/
def extension (name : String) : String :=
  normalize ⟨(splitBy (· == '.') name.data).getLastD []⟩

/-- The name/path scoring stage (lines 195-218): containment scores for the
name (1000 minus the capped position penalty) and the path (700 minus the
capped penalty), otherwise the fuzzy score against the name (400 + fuzzy,
taken only when JS-truthy, i.e. nonzero).  All values here are integers, so
the stage is carried in `ℤ`; the match type starts as `content`. -/
def nameStage (nq : String) (f : FileEntry) : ℤ × MatchType :=
  let nameLower := (normalize f.name).data
  let pathLower := (normalize f.path).data
  if includesL nameLower nq.data then
    (1000 - min 200 (((idxOfSub nameLower nq.data).getD 0 : ℤ) * 5), MatchType.name)
  else if includesL pathLower nq.data then
    (700 - min 200 (((idxOfSub pathLower nq.data).getD 0 : ℤ) * 2), MatchType.path)
  else
    match fuzzyScore nq.data nameLower with
    | some v => if v = 0 then (0, MatchType.content) else (400 + v, MatchType.name)
    | none => (0, MatchType.content)

/-- Lines 199-200: every token occurs in the lowercased name or path. -/
def namePathCoversAll (tokens : List (List Char)) (f : FileEntry) : Bool :=
  (tokens.filter fun t =>
      includesL (normalize f.name).data t || includesL (normalize f.path).data t).length
    == tokens.length

/-- The token snippet loop (lines 254-261): for each token in order, stop once
`MAX_MATCHES_PER_FILE` snippets are collected, otherwise locate the token's
first occurrence (if present), push a snippet and add 30 to the score. -/
def tokenLoop (contentLower : List Char) (content : String) :
    List (List Char) → List MatchSnippet → ℚ → List MatchSnippet × ℚ
  | [], ms, sc => (ms, sc)
  | t :: rest, ms, sc =>
    if MAX_MATCHES_PER_FILE ≤ ms.length then (ms, sc)
    else
      match idxOfSub contentLower t with
      | some ti =>
        tokenLoop contentLower content rest (ms ++ [buildSnippet content ti t.length]) (sc + 30)
      | none => tokenLoop contentLower content rest ms sc

/-- The whole-query content match (lines 247-252): if the normalized query
occurs in the content, start with its snippet and add `300 - min(200,
index*0.02)` (the only fractional arithmetic of the engine, hence the cast of
the integer name-stage score into `ℚ`); keep the current match type iff the
running score is positive. -/
def contentHead (nq : String) (score1 : ℤ) (mt1 : MatchType) (content : String) :
    List MatchSnippet × ℚ × MatchType :=
  match idxOfSub (normalize content).data nq.data with
  | some cmi =>
    ([buildSnippet content cmi nq.data.length],
     (score1 : ℚ) + (300 - min 200 ((cmi : ℚ) * (2 / 100))),
     if 0 < (score1 : ℚ) + (300 - min 200 ((cmi : ℚ) * (2 / 100))) then mt1
     else MatchType.content)
  | none => ([], (score1 : ℚ), mt1)

/-- Lines 254-266: run the token snippet loop after the whole-query match,
then apply the empty-matches fallback (`score += 50`, a placeholder snippet). -/
def contentFinish (nq : String) (tokens : List (List Char)) (score1 : ℤ) (mt1 : MatchType)
    (content : String) : List MatchSnippet × ℚ :=
  match tokenLoop (normalize content).data content tokens
      (contentHead nq score1 mt1 content).1 (contentHead nq score1 mt1 content).2.1 with
  | (ms, sc) => if ms.length = 0 then ([⟨"Content match", []⟩], sc + 50) else (ms, sc)

/-- The content stage of the worker (lines 243-274): token-coverage test, the
whole-query content snippet, the token snippet loop, and the emitted result. -/
def contentStage (nq : String) (tokens : List (List Char)) (score1 : ℤ) (mt1 : MatchType)
    (f : FileEntry) (content : String) : Option SearchResult :=
  if tokens.all (fun tk => includesL (normalize content).data tk) then
    some ⟨f.path, f.name,
      (contentFinish nq tokens score1 mt1 content).2,
      (contentFinish nq tokens score1 mt1 content).1,
      (contentHead nq score1 mt1 content).2.2⟩
  else none

/-- The positions in the target matched by the greedy walk of `fuzzyScore`
(the same walk as `fuzzyGo`, recording the matched indices). -/
def fuzzyPositions (t : List Char) : List Char → ℕ → List ℕ
  | [], _ => []
  | c :: rest, tIndex =>
    match indexOfFrom t c tIndex with
    | none => []
    | some found => found :: fuzzyPositions t rest (found + 1)

/-- Longest block of consecutive integers in a position list (auxiliary). -/
def maxConsecAux : List ℕ → ℕ → ℕ → ℕ → ℕ
  | [], _, cur, best => max best cur
  | p :: rest, prev, cur, best =>
    if p = prev + 1 then maxConsecAux rest p (cur + 1) best
    else maxConsecAux rest p 1 (max best cur)

/-- Predicate: `pat` occurs contiguously somewhere inside `t`. -/
def SubstrOf (pat t : List Char) : Prop := ∃ l r, t = l ++ pat ++ r

/-- The score of the canonical single-contiguous-run match. -/
def runScoreFormula (p L : ℕ) : ℤ :=
  if p = 0 then (L : ℤ) * L + 11 * L + 30
  else max 1 (6 - (p : ℤ)) + 10 * ((L : ℤ) - 1) + ((L : ℤ) - 1) * L + max 0 (30 - (p : ℤ))

/-- The length of the longest contiguous matched run of the greedy fuzzy walk
of `q` over `t`. -/
def longestRun (q t : List Char) : ℕ :=
  match fuzzyPositions t q 0 with
  | [] => 0
  | p :: rest => maxConsecAux rest p 1 0

/-- Outcome of scanning one file: the emitted result, if any, and whether the
content-read path was entered for this file. -/
structure ScanOutcome where
  result : Option SearchResult
  readContent : Bool
deriving DecidableEq

/-- The per-file worker body (lines 192-275): skip-list check, name/path/fuzzy
scoring with the immediate-emit condition `namePathCoversAll && score > 0`
(line 220), then — when the query is long enough — the content path.  A
failing content read (`f.content = none`) is the caught exception of lines
238-240: the file yields nothing and the worker moves on. -/
def scanStep (nq : String) (tokens : List (List Char)) (shouldSearchContent : Bool)
    (f : FileEntry) : ScanOutcome :=
  if SKIP_EXTENSIONS.contains (extension f.name) then ⟨none, false⟩
  else if namePathCoversAll tokens f && decide (0 < (nameStage nq f).1) then
    ⟨some ⟨f.path, f.name, ((nameStage nq f).1 : ℚ), [⟨"Filename match", []⟩],
      (nameStage nq f).2⟩, false⟩
  else if shouldSearchContent then
    match f.content with
    | none => ⟨none, true⟩
    | some content =>
      ⟨contentStage nq tokens (nameStage nq f).1 (nameStage nq f).2 f content, true⟩
  else ⟨none, false⟩

/-- Session parameters derived from the raw query (lines 160-163): trim,
normalize, whitespace-split into nonempty tokens, content-length gate. -/
def sessionParams (query : String) : String × List (List Char) × Bool :=
  let nq := normalize (trimStr query)
  let tokens := (splitBy Char.isWhitespace nq.data).filter (· ≠ [])
  (nq, tokens, decide (CONTENT_SEARCH_MIN_CHARS ≤ nq.data.length))

/-- One file's scan under the session of `query`. -/
def scanFile (query : String) (f : FileEntry) : ScanOutcome :=
  scanStep (sessionParams query).1 (sessionParams query).2.1 (sessionParams query).2.2 f

/-- A completed session's result buffer: every file scanned exactly once
(lines 170-278). -/
def scanBuffer (query : String) (files : List FileEntry) : List SearchResult :=
  files.filterMap fun f => (scanFile query f).result

/-- The final ordering (line 283): the comparator
`b.score - a.score || a.name.localeCompare(b.name)` ranks `a` at or before `b`
iff `a` scores higher, or scores are tied and `a`'s name is not after `b`'s. -/
def ResultLE (a b : SearchResult) : Prop :=
  b.score < a.score ∨ (a.score = b.score ∧ a.name ≤ b.name)

instance : DecidableRel ResultLE := fun a b => by
  unfold ResultLE; infer_instance

/-- The final emitted list (lines 282-289): stably sort the buffer by the
comparator (JS `Array.prototype.sort` is a stable comparison sort) and
truncate to `MAX_RESULTS`. -/
def searchResults (query : String) (files : List FileEntry) : List SearchResult :=
  (List.insertionSort ResultLE (scanBuffer query files)).take MAX_RESULTS

/-- A UI-facing callback payload: a progress tuple (line 189) or a final
result list (line 286). -/
inductive UiEvent
  | progress (scanned total : ℕ)
  | results (rs : List SearchResult)
deriving DecidableEq

/-- The controller's observable state: the current generation counter
(`searchIdRef`, line 133), the visible results/progress, and a log of the UI
emissions that were actually accepted (each with the generation that produced
it). -/
structure CtrlState where
  currentGen : ℕ
  results : List SearchResult
  progress : ℕ × ℕ
  emitted : List (ℕ × UiEvent)
deriving DecidableEq

/-- Controller events: a new session starting (lines 158-159 increment
`searchIdRef`), or a worker callback tagged with the generation it was
produced under. -/
inductive CtrlEvent
  | start
  | callback (gen : ℕ) (e : UiEvent)
deriving DecidableEq

/-- One controller transition.  A callback is applied only when its generation
equals the current one (the `searchIdRef.current !== searchId` guards at lines
184 and 280); a stale callback mutates nothing and emits nothing. -/
def ctrlStep (s : CtrlState) : CtrlEvent → CtrlState
  | CtrlEvent.start => { s with currentGen := s.currentGen + 1 }
  | CtrlEvent.callback g e =>
    if g = s.currentGen then
      match e with
      | UiEvent.progress sc tot =>
        { s with progress := (sc, tot), emitted := s.emitted ++ [(g, UiEvent.progress sc tot)] }
      | UiEvent.results rs =>
        { s with results := rs, emitted := s.emitted ++ [(g, UiEvent.results rs)] }
    else s

/-- Run the controller over a sequence of events. -/
def ctrlRun (s : CtrlState) (l : List CtrlEvent) : CtrlState := l.foldl ctrlStep s

/-- The modal's query-related state (lines 127-134): visible results,
searching flag, progress, the generation counter, and the single outstanding
debounce timer (carrying the session it would start). -/
structure ModalState where
  results : List SearchResult
  isSearching : Bool
  progress : ℕ × ℕ
  searchId : ℕ
  pendingTimer : Option (ℕ × String)
deriving DecidableEq

/-- The query-change effect (lines 149-167 and the cleanup at 295-297): the
previous debounce timer is always cancelled; an empty (or whitespace-only)
query clears results, stops searching, resets progress and starts no session;
otherwise a new generation is allocated and a new debounce timer is armed for
it. -/
def queryEffect (query : String) (files : List FileEntry) (st : ModalState) : ModalState :=
  if trimStr query = "" then
    { st with
        results := []
        isSearching := false
        progress := (0, 0)
        pendingTimer := none }
  else
    { st with
        searchId := st.searchId + 1
        isSearching := true
        progress := (0, files.length)
        pendingTimer := some (st.searchId + 1, normalize (trimStr query)) }

/-! ### Substring and character-search characterizations -/

theorem begMatch_iff (pat t : List Char) : begMatch pat t = true ↔ ∃ r, t = pat ++ r := by
  induction pat generalizing t with
  | nil => simp [begMatch]
  | cons c ps ih =>
    cases t with
    | nil => simp [begMatch]
    | cons a ts =>
      simp only [begMatch, Bool.and_eq_true, beq_iff_eq]
      constructor
      · rintro ⟨rfl, h⟩
        obtain ⟨r, rfl⟩ := (ih ts).mp h
        exact ⟨r, rfl⟩
      · rintro ⟨r, hr⟩
        rw [List.cons_append] at hr
        injection hr with h1 h2
        exact ⟨h1, (ih ts).mpr ⟨r, h2⟩⟩

theorem substrOf_nil : SubstrOf pat [] ↔ pat = [] := by
  constructor
  · rintro ⟨l, r, h⟩
    rcases List.append_eq_nil.mp h.symm with ⟨h1, h2⟩
    rcases List.append_eq_nil.mp h1 with ⟨-, h3⟩
    exact h3
  · rintro rfl; exact ⟨[], [], rfl⟩

theorem substrOf_cons (pat : List Char) (a : Char) (rest : List Char) :
    SubstrOf pat (a :: rest) ↔ (∃ r, a :: rest = pat ++ r) ∨ SubstrOf pat rest := by
  constructor
  · rintro ⟨l, r, h⟩
    cases l with
    | nil => exact Or.inl ⟨r, by simpa using h⟩
    | cons b l' =>
      rw [List.cons_append, List.cons_append] at h
      injection h with h1 h2
      exact Or.inr ⟨l', r, h2⟩
  · rintro (⟨r, h⟩ | ⟨l, r, h⟩)
    · exact ⟨[], r, by simpa using h⟩
    · exact ⟨a :: l, r, by simp [h]⟩

theorem idxOfSub_isSome_iff (t pat : List Char) :
    (idxOfSub t pat).isSome = true ↔ SubstrOf pat t := by
  induction t with
  | nil =>
    by_cases h : begMatch pat [] = true
    · obtain ⟨r, hr⟩ := (begMatch_iff pat []).mp h
      rcases List.append_eq_nil.mp hr.symm with ⟨h1, -⟩
      simp [idxOfSub, h, substrOf_nil, h1, begMatch]
    · have : pat ≠ [] := by
        intro hp
        exact h ((begMatch_iff pat []).mpr ⟨[], by simp [hp]⟩)
      simp [idxOfSub, h, substrOf_nil, this]
  | cons a rest ih =>
    by_cases h : begMatch pat (a :: rest) = true
    · simp [idxOfSub, h, substrOf_cons, (begMatch_iff pat (a :: rest)).mp h]
    · have hnot : ¬ ∃ r, a :: rest = pat ++ r := fun hr => h ((begMatch_iff _ _).mpr hr)
      simp [idxOfSub, h, substrOf_cons, hnot, ih]

theorem includesL_iff (t pat : List Char) : includesL t pat = true ↔ SubstrOf pat t := by
  rw [includesL, idxOfSub_isSome_iff]

theorem charIdx_getQ (c : Char) (l : List Char) :
    ∀ j, charIdx c l = some j → l[j]? = some c := by
  induction l with
  | nil => intro j h; simp [charIdx] at h
  | cons a rest ih =>
    intro j h
    by_cases hac : a == c
    · simp only [charIdx, if_pos hac, Option.some.injEq] at h
      subst h
      simpa using (beq_iff_eq.mp hac)
    · simp only [charIdx, if_neg hac, Option.map_eq_some'] at h
      obtain ⟨j', hj', rfl⟩ := h
      simpa using ih j' hj'

theorem charIdx_append_of_mem (c : Char) (r₂ : List Char) :
    ∀ r₁ : List Char, c ∈ r₁ →
      ∃ j, charIdx c (r₁ ++ r₂) = some j ∧ j < r₁.length := by
  intro r₁
  induction r₁ with
  | nil => intro h; cases h
  | cons a r ih =>
    intro h
    by_cases hac : a == c
    · exact ⟨0, by simp [charIdx, hac], by simp⟩
    · have hcr : c ∈ r := by
        rcases List.mem_cons.mp h with rfl | hr
        · exact absurd (beq_iff_eq.mpr rfl) hac
        · exact hr
      obtain ⟨j, hj, hlt⟩ := ih hcr
      refine ⟨j + 1, ?_, ?_⟩
      · simp [charIdx, hac, hj]
      · simpa using Nat.succ_lt_succ hlt

theorem indexOfFrom_eq_some (t : List Char) (c : Char) (s f : ℕ) :
    indexOfFrom t c s = some f ↔ ∃ j, charIdx c (t.drop s) = some j ∧ f = j + s := by
  simp only [indexOfFrom, Option.map_eq_some']
  constructor
  · rintro ⟨j, hj, rfl⟩; exact ⟨j, hj, rfl⟩
  · rintro ⟨j, hj, rfl⟩; exact ⟨j, hj, rfl⟩

/-! ### The greedy fuzzy walk succeeds exactly on subsequences -/

theorem fuzzyGo_isSome_iff (t : List Char) (q : List Char) :
    ∀ (tIndex streak : ℕ) (score : ℤ),
      (∃ v, fuzzyGo t q tIndex streak score = some v) ↔ q.Sublist (t.drop tIndex) := by
  induction q with
  | nil =>
    intro tIndex streak score
    simp [fuzzyGo, List.nil_sublist]
  | cons c rest ih =>
    intro tIndex streak score
    constructor
    · rintro ⟨v, hv⟩
      simp only [fuzzyGo] at hv
      cases hfound : indexOfFrom t c tIndex with
      | none => simp [hfound] at hv
      | some found =>
        simp only [hfound] at hv
        obtain ⟨j, hj, rfl⟩ := (indexOfFrom_eq_some t c tIndex found).mp hfound
        have hget : (t.drop tIndex)[j]? = some c := charIdx_getQ c (t.drop tIndex) j hj
        have hsub : rest.Sublist (t.drop (j + tIndex + 1)) := by
          by_cases hb : j + tIndex = tIndex
          · rw [if_pos hb] at hv; exact (ih _ _ _).mp ⟨v, hv⟩
          · rw [if_neg hb] at hv; exact (ih _ _ _).mp ⟨v, hv⟩
        have hgt : t[tIndex + j]? = some c := by
          rw [← List.getElem?_drop]; exact hget
        obtain ⟨hlt, hgeq⟩ := List.getElem?_eq_some.mp hgt
        have hdrop : t.drop (tIndex + j) = c :: t.drop (tIndex + j + 1) := by
          rw [List.drop_eq_getElem_cons hlt, hgeq]
        have e1 : j + tIndex + 1 = tIndex + j + 1 := by omega
        rw [e1] at hsub
        have h1 : (c :: rest).Sublist (t.drop (tIndex + j)) := by
          rw [hdrop]; exact hsub.cons₂ c
        have h2 : (t.drop (tIndex + j)).Sublist (t.drop tIndex) := by
          have e2 : t.drop (tIndex + j) = (t.drop tIndex).drop j := by
            rw [List.drop_drop]
          rw [e2]
          exact List.drop_sublist j (t.drop tIndex)
        exact h1.trans h2
    · intro hsub
      obtain ⟨r₁, r₂, heq, hc, hrest⟩ := List.cons_sublist_iff.mp hsub
      obtain ⟨j, hj, hjlt⟩ := charIdx_append_of_mem c r₂ r₁ hc
      rw [← heq] at hj
      have hfound : indexOfFrom t c tIndex = some (j + tIndex) :=
        (indexOfFrom_eq_some t c tIndex (j + tIndex)).mpr ⟨j, hj, rfl⟩
      have hr₂ : r₂ = t.drop (tIndex + r₁.length) :=
        calc r₂ = (r₁ ++ r₂).drop r₁.length := (List.drop_left r₁ r₂).symm
        _ = (t.drop tIndex).drop r₁.length := by rw [heq]
        _ = t.drop (tIndex + r₁.length) := List.drop_drop _ _ _
      have hrest' : rest.Sublist (t.drop (j + tIndex + 1)) := by
        have e4 : t.drop (tIndex + r₁.length)
            = (t.drop (j + tIndex + 1)).drop (r₁.length - (j + 1)) := by
          rw [List.drop_drop]
          congr 1
          omega
        have hmid : r₂.Sublist (t.drop (j + tIndex + 1)) := by
          rw [hr₂, e4]
          exact List.drop_sublist _ _
        exact hrest.trans hmid
      simp only [fuzzyGo, hfound]
      by_cases hb : j + tIndex = tIndex
      · rw [if_pos hb]
        obtain ⟨v, hv⟩ := (ih (j + tIndex + 1) (streak + 1)
          (score + (10 + ((streak : ℤ) + 1) * 2))).mpr hrest'
        exact ⟨v, hv⟩
      · rw [if_neg hb]
        obtain ⟨v, hv⟩ := (ih (j + tIndex + 1) 0
          (score + max 1 (6 - (((j + tIndex : ℕ) : ℤ) - (tIndex : ℤ))))).mpr hrest'
        exact ⟨v, hv⟩

theorem fuzzyGo_lower (t : List Char) (q : List Char) :
    ∀ (tIndex streak : ℕ) (score v : ℤ),
      fuzzyGo t q tIndex streak score = some v → score + q.length ≤ v := by
  induction q with
  | nil =>
    intro tIndex streak score v h
    simp only [fuzzyGo, Option.some.injEq] at h
    subst h; simp
  | cons c rest ih =>
    intro tIndex streak score v h
    simp only [fuzzyGo] at h
    cases hfound : indexOfFrom t c tIndex with
    | none => simp [hfound] at h
    | some found =>
      simp only [hfound] at h
      by_cases hb : found = tIndex
      · rw [if_pos hb] at h
        have hrec := ih _ _ _ _ h
        have hstreak : (0 : ℤ) ≤ (streak : ℤ) := Int.natCast_nonneg streak
        simp only [List.length_cons]
        push_cast at hrec ⊢
        linarith
      · rw [if_neg hb] at h
        have hrec := ih _ _ _ _ h
        have hmax : (1 : ℤ) ≤ max 1 (6 - ((found : ℤ) - (tIndex : ℤ))) := le_max_left 1 _
        simp only [List.length_cons]
        push_cast at hrec ⊢
        linarith

theorem fuzzyScore_eq_none_iff (q t : List Char) :
    fuzzyScore q t = none ↔ ¬ q.Sublist t := by
  have hiff := fuzzyGo_isSome_iff t q 0 0 0
  rw [List.drop_zero] at hiff
  unfold fuzzyScore
  cases hg : fuzzyGo t q 0 0 0 with
  | none =>
    rw [hg] at hiff
    have hns : ¬ q.Sublist t := by
      intro hs
      obtain ⟨v, hv⟩ := hiff.mpr hs
      cases hv
    exact iff_of_true rfl hns
  | some s =>
    rw [hg] at hiff
    have hs : q.Sublist t := hiff.mp ⟨s, rfl⟩
    exact iff_of_false (by simp) (not_not_intro hs)

theorem fuzzyScore_pos (q t : List Char) (hq : q ≠ []) :
    ∀ v, fuzzyScore q t = some v → 0 < v := by
  intro v h
  unfold fuzzyScore at h
  cases hg : fuzzyGo t q 0 0 0 with
  | none => rw [hg] at h; cases h
  | some s =>
    rw [hg] at h
    simp only [Option.some.injEq] at h
    have h1 : (0 : ℤ) + q.length ≤ s := fuzzyGo_lower t q 0 0 0 s hg
    have h2 : (1 : ℤ) ≤ (q.length : ℤ) := by
      have hl : 0 < q.length := List.length_pos.mpr hq
      exact_mod_cast hl
    have key : ∀ e : ℤ, 0 < s + max 0 e := by
      intro e
      have he := le_max_left (0 : ℤ) e
      linarith
    rw [← h]
    exact key _


/-! ### Contiguous-run scoring: the canonical family where a query of length
`L` is matched as one contiguous run at start offset `p`. -/

theorem charIdx_repl (p L : ℕ) (hL : 1 ≤ L) :
    charIdx 'a' (List.replicate p 'z' ++ List.replicate L 'a') = some p := by
  induction p with
  | zero =>
    obtain ⟨L', rfl⟩ : ∃ L', L = L' + 1 := ⟨L - 1, by omega⟩
    simp [List.replicate_succ, charIdx]
  | succ p ih =>
    simp [List.replicate_succ, charIdx, ih]

theorem drop_repl_append (p L i : ℕ) (h1 : p ≤ i) :
    (List.replicate p 'z' ++ List.replicate L 'a').drop i
      = List.replicate (p + L - i) 'a' := by
  have e : i = (List.replicate p 'z' : List Char).length + (i - p) := by
    simp [List.length_replicate]; omega
  rw [e, List.drop_append, List.drop_replicate]
  congr 1
  omega

theorem indexOfFrom_repl (p L i : ℕ) (h1 : p ≤ i) (h2 : i < p + L) :
    indexOfFrom (List.replicate p 'z' ++ List.replicate L 'a') 'a' i = some i := by
  rw [indexOfFrom, drop_repl_append p L i h1]
  obtain ⟨m, hm⟩ : ∃ m, p + L - i = m + 1 := ⟨p + L - i - 1, by omega⟩
  rw [hm, List.replicate_succ]
  simp [charIdx]

theorem fuzzyGo_repl_run (p L : ℕ) :
    ∀ (j i σ : ℕ) (sc : ℤ), p ≤ i → i + j ≤ p + L →
      fuzzyGo (List.replicate p 'z' ++ List.replicate L 'a') (List.replicate j 'a') i σ sc
        = some (sc + 10 * j + 2 * (σ : ℤ) * j + j * (j + 1)) := by
  intro j
  induction j with
  | zero =>
    intro i σ sc h1 h2
    simp [fuzzyGo]
  | succ j ih =>
    intro i σ sc h1 h2
    rw [List.replicate_succ]
    simp only [fuzzyGo, indexOfFrom_repl p L i h1 (by omega), if_pos rfl]
    rw [ih (i + 1) (σ + 1) _ (by omega) (by omega)]
    push_cast
    ring_nf

theorem fuzzyScore_repl_run (p L : ℕ) (hL : 1 ≤ L) :
    fuzzyScore (List.replicate L 'a') (List.replicate p 'z' ++ List.replicate L 'a')
      = some (runScoreFormula p L) := by
  obtain ⟨L', rfl⟩ : ∃ L', L = L' + 1 := ⟨L - 1, by omega⟩
  have hidx0 : indexOfFrom (List.replicate p 'z' ++ List.replicate (L' + 1) 'a') 'a' 0
      = some (p + 0) := by
    rw [indexOfFrom, List.drop_zero, charIdx_repl p (L' + 1) (by omega)]
    rfl
  by_cases hp : p = 0
  · subst hp
    have hgo := fuzzyGo_repl_run 0 (L' + 1) (L' + 1) 0 0 0 (by omega) (by omega)
    unfold fuzzyScore
    rw [List.replicate_succ 'a' L'] at hidx0 hgo ⊢
    simp only [hgo, hidx0]
    rw [runScoreFormula]
    simp only [if_pos rfl]
    congr 1
    have hmax : max (0 : ℤ) (30 - ((0 + 0 : ℕ) : ℤ)) = 30 := by norm_num
    rw [hmax]
    push_cast
    ring
  · have hpne : ¬ (p + 0 = 0) := by omega
    have hstep := fuzzyGo_repl_run p (L' + 1) L' (p + 0 + 1) 0
      (0 + max 1 (6 - (((p + 0 : ℕ) : ℤ) - ((0 : ℕ) : ℤ)))) (by omega) (by omega)
    unfold fuzzyScore
    rw [List.replicate_succ 'a' L'] at hidx0 hstep ⊢
    simp only [fuzzyGo, hidx0, if_neg hpne, hstep]
    rw [runScoreFormula]
    simp only [if_neg hp]
    congr 1
    push_cast
    have e1 : max (1 : ℤ) (6 - ((p : ℤ) + 0 - 0)) = max 1 (6 - (p : ℤ)) := by norm_num
    have e2 : max (0 : ℤ) (30 - ((p : ℤ) + 0)) = max 0 (30 - (p : ℤ)) := by norm_num
    rw [e1, e2]
    generalize max (1 : ℤ) (6 - (p : ℤ)) = m1
    generalize max (0 : ℤ) (30 - (p : ℤ)) = m2
    ring

theorem runScoreFormula_mono (p L₁ L₂ : ℕ) (h1 : 1 ≤ L₁) (h12 : L₁ ≤ L₂) :
    runScoreFormula p L₁ ≤ runScoreFormula p L₂ := by
  have hc1 : (1 : ℤ) ≤ (L₁ : ℤ) := by exact_mod_cast h1
  have hc12 : (L₁ : ℤ) ≤ (L₂ : ℤ) := by exact_mod_cast h12
  unfold runScoreFormula
  by_cases hp : p = 0
  · simp only [if_pos hp]
    nlinarith [mul_nonneg (sub_nonneg.mpr hc12) (by linarith : (0 : ℤ) ≤ (L₂ : ℤ) + (L₁ : ℤ))]
  · simp only [if_neg hp]
    nlinarith [mul_nonneg (sub_nonneg.mpr hc12) (by linarith : (0 : ℤ) ≤ (L₂ : ℤ) + (L₁ : ℤ) - 1)]

/-! ### The token snippet loop: length bounds and the all-found score -/

theorem tokenLoop_length_bounds (cl : List Char) (c : String) :
    ∀ (ts : List (List Char)) (ms : List MatchSnippet) (sc : ℚ),
      ms.length ≤ MAX_MATCHES_PER_FILE →
      ms.length ≤ (tokenLoop cl c ts ms sc).1.length ∧
      (tokenLoop cl c ts ms sc).1.length ≤ MAX_MATCHES_PER_FILE := by
  intro ts
  induction ts with
  | nil =>
    intro ms sc h
    exact ⟨le_refl _, h⟩
  | cons t rest ih =>
    intro ms sc h
    simp only [tokenLoop]
    by_cases hlen : MAX_MATCHES_PER_FILE ≤ ms.length
    · rw [if_pos hlen]
      exact ⟨le_refl _, h⟩
    · rw [if_neg hlen]
      cases hidx : idxOfSub cl t with
      | some ti =>
        simp only [hidx]
        have h' : (ms ++ [buildSnippet c ti t.length]).length ≤ MAX_MATCHES_PER_FILE := by
          simp only [List.length_append, List.length_singleton]
          omega
        obtain ⟨h1, h2⟩ := ih (ms ++ [buildSnippet c ti t.length]) (sc + 30) h'
        refine ⟨le_trans ?_ h1, h2⟩
        simp
      | none =>
        simp only [hidx]
        exact ih ms sc h

theorem tokenLoop_all_found (cl : List Char) (c : String) :
    ∀ (ts : List (List Char)) (ms : List MatchSnippet) (sc : ℚ),
      ms.length ≤ MAX_MATCHES_PER_FILE →
      (∀ tk ∈ ts, (idxOfSub cl tk).isSome = true) →
      (tokenLoop cl c ts ms sc).1.length = min (ms.length + ts.length) MAX_MATCHES_PER_FILE ∧
      (tokenLoop cl c ts ms sc).2
        = sc + 30 * ((min (ms.length + ts.length) MAX_MATCHES_PER_FILE : ℕ) : ℚ)
            - 30 * (ms.length : ℚ) := by
  intro ts
  induction ts with
  | nil =>
    intro ms sc h hall
    have e : min (ms.length + ([] : List (List Char)).length) MAX_MATCHES_PER_FILE
        = ms.length := by
      simp only [List.length_nil, Nat.add_zero]
      omega
    rw [e]
    constructor
    · rfl
    · simp [tokenLoop]
  | cons t rest ih =>
    intro ms sc h hall
    have ht : (idxOfSub cl t).isSome = true := hall t (by simp)
    obtain ⟨ti, hti⟩ := Option.isSome_iff_exists.mp ht
    simp only [tokenLoop]
    by_cases hlen : MAX_MATCHES_PER_FILE ≤ ms.length
    · rw [if_pos hlen]
      have hm : ms.length = MAX_MATCHES_PER_FILE := le_antisymm h hlen
      have e : min (ms.length + (t :: rest).length) MAX_MATCHES_PER_FILE = ms.length := by
        omega
      rw [e]
      constructor
      · rfl
      · rw [hm]; ring
    · rw [if_neg hlen]
      simp only [hti]
      have h' : (ms ++ [buildSnippet c ti t.length]).length ≤ MAX_MATCHES_PER_FILE := by
        simp only [List.length_append, List.length_singleton]
        omega
      obtain ⟨ih1, ih2⟩ := ih (ms ++ [buildSnippet c ti t.length]) (sc + 30) h'
        (fun tk hk => hall tk (List.mem_cons_of_mem t hk))
      have elen : (ms ++ [buildSnippet c ti t.length]).length = ms.length + 1 := by
        simp
      have emin : min ((ms ++ [buildSnippet c ti t.length]).length + rest.length)
          MAX_MATCHES_PER_FILE = min (ms.length + (t :: rest).length) MAX_MATCHES_PER_FILE := by
        simp only [elen, List.length_cons]
        omega
      constructor
      · rw [ih1, emin]
      · rw [ih2, emin, elen]
        push_cast
        ring

/-! ### Per-file scan lemmas -/

theorem contentHead_len (nq : String) (score1 : ℤ) (mt1 : MatchType) (content : String) :
    (contentHead nq score1 mt1 content).1.length ≤ MAX_MATCHES_PER_FILE := by
  unfold contentHead
  cases h : idxOfSub (normalize content).data nq.data <;> simp [MAX_MATCHES_PER_FILE]

theorem contentStage_fields (nq : String) (tokens : List (List Char)) (score1 : ℤ)
    (mt1 : MatchType) (f : FileEntry) (content : String) (r : SearchResult)
    (h : contentStage nq tokens score1 mt1 f content = some r) :
    r.path = f.path ∧ r.name = f.name ∧
      r.matches = (contentFinish nq tokens score1 mt1 content).1 ∧
      (∀ tk ∈ tokens, SubstrOf tk (normalize content).data) := by
  unfold contentStage at h
  by_cases hall : tokens.all (fun tk => includesL (normalize content).data tk) = true
  · rw [if_pos hall] at h
    have hr := Option.some.inj h
    subst hr
    refine ⟨rfl, rfl, rfl, ?_⟩
    intro tk hk
    exact (includesL_iff _ _).mp (List.all_eq_true.mp hall tk hk)
  · rw [if_neg hall] at h
    cases h

theorem contentFinish_len (nq : String) (tokens : List (List Char)) (score1 : ℤ)
    (mt1 : MatchType) (content : String) :
    1 ≤ (contentFinish nq tokens score1 mt1 content).1.length ∧
    (contentFinish nq tokens score1 mt1 content).1.length ≤ MAX_MATCHES_PER_FILE := by
  obtain ⟨hlow, hhigh⟩ := tokenLoop_length_bounds (normalize content).data content tokens
    (contentHead nq score1 mt1 content).1 (contentHead nq score1 mt1 content).2.1
    (contentHead_len nq score1 mt1 content)
  unfold contentFinish
  rcases htl : tokenLoop (normalize content).data content tokens
      (contentHead nq score1 mt1 content).1 (contentHead nq score1 mt1 content).2.1
    with ⟨ms, sc⟩
  rw [htl] at hhigh
  simp only at hhigh
  simp only [htl]
  by_cases hz : ms.length = 0
  · simp [hz, MAX_MATCHES_PER_FILE]
  · rw [if_neg hz]
    simp only
    constructor
    · omega
    · exact hhigh

theorem nameStage_score_nonneg_fuzzy (nq : String) (t : List Char) (v : ℤ)
    (h : fuzzyScore nq.data t = some v) : 0 ≤ v := by
  unfold fuzzyScore at h
  cases hg : fuzzyGo t nq.data 0 0 0 with
  | none => rw [hg] at h; cases h
  | some s =>
    rw [hg] at h
    simp only [Option.some.injEq] at h
    have h1 : (0 : ℤ) + nq.data.length ≤ s := fuzzyGo_lower t nq.data 0 0 0 s hg
    have h2 : (0 : ℤ) ≤ (nq.data.length : ℤ) := Int.natCast_nonneg _
    have key : ∀ e : ℤ, 0 ≤ s + max 0 e := by
      intro e
      have he := le_max_left (0 : ℤ) e
      linarith
    rw [← h]
    exact key _

theorem nameStage_pos_cases (nq : String) (f : FileEntry)
    (h : 0 < (nameStage nq f).1) :
    SubstrOf nq.data (normalize f.name).data ∨
    SubstrOf nq.data (normalize f.path).data ∨
    fuzzyScore nq.data (normalize f.name).data ≠ none := by
  unfold nameStage at h
  by_cases h1 : includesL (normalize f.name).data nq.data = true
  · exact Or.inl ((includesL_iff _ _).mp h1)
  · rw [if_neg h1] at h
    by_cases h2 : includesL (normalize f.path).data nq.data = true
    · exact Or.inr (Or.inl ((includesL_iff _ _).mp h2))
    · rw [if_neg h2] at h
      cases hfz : fuzzyScore nq.data (normalize f.name).data with
      | none => rw [hfz] at h; simp at h
      | some v => exact Or.inr (Or.inr (by simp [hfz]))

theorem nameStage_pos_type (nq : String) (f : FileEntry)
    (h : 0 < (nameStage nq f).1) :
    (nameStage nq f).2 = MatchType.name ∨ (nameStage nq f).2 = MatchType.path := by
  unfold nameStage at h ⊢
  by_cases h1 : includesL (normalize f.name).data nq.data = true
  · rw [if_pos h1]; exact Or.inl rfl
  · rw [if_neg h1] at h ⊢
    by_cases h2 : includesL (normalize f.path).data nq.data = true
    · rw [if_pos h2]; exact Or.inr rfl
    · rw [if_neg h2] at h ⊢
      cases hfz : fuzzyScore nq.data (normalize f.name).data with
      | none => rw [hfz] at h; simp at h
      | some v =>
        rw [hfz] at h
        by_cases hv : v = 0
        · simp [hv] at h
        · simp [hv]

theorem scanStep_sound (nq : String) (tokens : List (List Char)) (ssc : Bool) (f : FileEntry)
    (r : SearchResult) (h : (scanStep nq tokens ssc f).result = some r) :
    r.path = f.path ∧ r.name = f.name ∧
      (SubstrOf nq.data (normalize f.name).data ∨
       SubstrOf nq.data (normalize f.path).data ∨
       fuzzyScore nq.data (normalize f.name).data ≠ none ∨
       (∃ c, f.content = some c ∧ ∀ tk ∈ tokens, SubstrOf tk (normalize c).data)) := by
  unfold scanStep at h
  by_cases hskip : SKIP_EXTENSIONS.contains (extension f.name) = true
  · rw [if_pos hskip] at h
    simp at h
  · rw [if_neg hskip] at h
    by_cases hcov : (namePathCoversAll tokens f && decide (0 < (nameStage nq f).1)) = true
    · rw [if_pos hcov] at h
      simp only at h
      have hr := Option.some.inj h
      subst hr
      have hcov' := hcov
      rw [Bool.and_eq_true] at hcov'
      have hpos : 0 < (nameStage nq f).1 := of_decide_eq_true hcov'.2
      refine ⟨rfl, rfl, ?_⟩
      rcases nameStage_pos_cases nq f hpos with h1 | h2 | h3
      · exact Or.inl h1
      · exact Or.inr (Or.inl h2)
      · exact Or.inr (Or.inr (Or.inl h3))
    · rw [if_neg hcov] at h
      by_cases hssc : ssc = true
      · rw [if_pos hssc] at h
        cases hcon : f.content with
        | none => rw [hcon] at h; simp at h
        | some content =>
          rw [hcon] at h
          simp only at h
          obtain ⟨hp, hn, hm, hall⟩ := contentStage_fields nq tokens _ _ f content r h
          exact ⟨hp, hn, Or.inr (Or.inr (Or.inr ⟨content, rfl, hall⟩))⟩
      · rw [if_neg hssc] at h
        simp at h

theorem scanStep_matches_len (nq : String) (tokens : List (List Char)) (ssc : Bool)
    (f : FileEntry) (r : SearchResult) (h : (scanStep nq tokens ssc f).result = some r) :
    1 ≤ r.matches.length ∧ r.matches.length ≤ MAX_MATCHES_PER_FILE := by
  unfold scanStep at h
  by_cases hskip : SKIP_EXTENSIONS.contains (extension f.name) = true
  · rw [if_pos hskip] at h
    simp at h
  · rw [if_neg hskip] at h
    by_cases hcov : (namePathCoversAll tokens f && decide (0 < (nameStage nq f).1)) = true
    · rw [if_pos hcov] at h
      simp only at h
      have hr := Option.some.inj h
      subst hr
      simp [MAX_MATCHES_PER_FILE]
    · rw [if_neg hcov] at h
      by_cases hssc : ssc = true
      · rw [if_pos hssc] at h
        cases hcon : f.content with
        | none => rw [hcon] at h; simp at h
        | some content =>
          rw [hcon] at h
          simp only at h
          obtain ⟨-, -, hm, -⟩ := contentStage_fields nq tokens _ _ f content r h
          rw [hm]
          exact contentFinish_len nq tokens _ _ content
      · rw [if_neg hssc] at h
        simp at h

theorem scanStep_failed (nq : String) (tokens : List (List Char)) (ssc : Bool) (f : FileEntry)
    (hc : f.content = none) (hr : (scanStep nq tokens ssc f).readContent = true) :
    (scanStep nq tokens ssc f).result = none := by
  unfold scanStep at hr ⊢
  by_cases hskip : SKIP_EXTENSIONS.contains (extension f.name) = true
  · rw [if_pos hskip] at hr
    simp at hr
  · rw [if_neg hskip] at hr ⊢
    by_cases hcov : (namePathCoversAll tokens f && decide (0 < (nameStage nq f).1)) = true
    · rw [if_pos hcov] at hr
      simp at hr
    · rw [if_neg hcov] at hr ⊢
      by_cases hssc : ssc = true
      · rw [if_pos hssc]
        rw [hc]
      · rw [if_neg hssc] at hr
        simp at hr

/-- The amended name/path short-circuit: with a positive name-stage score AND
full token coverage by name/path, the worker emits immediately and never
enters the content path. -/
theorem scanStep_shortCircuit (nq : String) (tokens : List (List Char)) (ssc : Bool)
    (f : FileEntry) (hskip : SKIP_EXTENSIONS.contains (extension f.name) = false)
    (hcov : namePathCoversAll tokens f = true) (hpos : 0 < (nameStage nq f).1) :
    scanStep nq tokens ssc f
      = ⟨some ⟨f.path, f.name, ((nameStage nq f).1 : ℚ), [⟨"Filename match", []⟩],
          (nameStage nq f).2⟩, false⟩ := by
  unfold scanStep
  rw [hskip]
  simp only [Bool.false_eq_true, if_false]
  rw [hcov]
  simp [hpos]

theorem mem_scanBuffer_of_mem_searchResults (query : String) (files : List FileEntry)
    (r : SearchResult) (h : r ∈ searchResults query files) : r ∈ scanBuffer query files := by
  unfold searchResults at h
  exact ((List.perm_insertionSort ResultLE _).mem_iff).mp (List.mem_of_mem_take h)

instance : IsTrans SearchResult ResultLE := by
  constructor
  intro a b c hab hbc
  rcases hab with h1 | ⟨h1, h1n⟩ <;> rcases hbc with h2 | ⟨h2, h2n⟩
  · exact Or.inl (lt_trans h2 h1)
  · exact Or.inl (h2 ▸ h1)
  · exact Or.inl (by rw [h1]; exact h2)
  · exact Or.inr ⟨h1.trans h2, le_trans h1n h2n⟩

instance : IsTotal SearchResult ResultLE := by
  constructor
  intro a b
  rcases lt_trichotomy a.score b.score with h | h | h
  · exact Or.inr (Or.inl h)
  · rcases le_total a.name b.name with hn | hn
    · exact Or.inl (Or.inr ⟨h, hn⟩)
    · exact Or.inr (Or.inr ⟨h.symm, hn⟩)
  · exact Or.inl (Or.inl h)

/-! ### Controller event-system lemmas -/

theorem ctrlStep_stale (s : CtrlState) (g : ℕ) (e : UiEvent) (h : g ≠ s.currentGen) :
    ctrlStep s (CtrlEvent.callback g e) = s := by
  simp only [ctrlStep]
  rw [if_neg h]

theorem ctrlStep_gen_le (s : CtrlState) (ev : CtrlEvent) :
    s.currentGen ≤ (ctrlStep s ev).currentGen := by
  cases ev with
  | start => simp [ctrlStep]
  | callback g e =>
    simp only [ctrlStep]
    by_cases h : g = s.currentGen
    · rw [if_pos h]
      cases e <;> simp
    · rw [if_neg h]

theorem ctrlRun_gen_le (s : CtrlState) (l : List CtrlEvent) :
    s.currentGen ≤ (ctrlRun s l).currentGen := by
  induction l generalizing s with
  | nil => exact le_refl _
  | cons ev rest ih => exact le_trans (ctrlStep_gen_le s ev) (ih (ctrlStep s ev))

theorem ctrlRun_append (s : CtrlState) (l1 l2 : List CtrlEvent) :
    ctrlRun s (l1 ++ l2) = ctrlRun (ctrlRun s l1) l2 :=
  List.foldl_append ctrlStep s l1 l2

/-! ### Snippet window arithmetic -/

theorem snippet_core (c : List Char) (pre suf : List Char) (mi ml start stop : ℕ)
    (h1 : start ≤ mi) (h2 : mi + ml ≤ stop) (h3 : stop ≤ c.length) :
    ((pre ++ (c.drop start).take (stop - start) ++ suf).drop
        (pre.length + (mi - start))).take ml
      = (c.drop mi).take ml := by
  have hmidlen : ((c.drop start).take (stop - start)).length = stop - start := by
    rw [List.length_take, List.length_drop]
    omega
  rw [List.append_assoc, List.drop_append, List.drop_append_eq_append_drop]
  have e1 : (mi - start) - ((c.drop start).take (stop - start)).length = 0 := by
    rw [hmidlen]; omega
  rw [e1, List.drop_zero, List.take_append_eq_append_take]
  have hdroplen : (((c.drop start).take (stop - start)).drop (mi - start)).length
      = stop - mi := by
    rw [List.length_drop, hmidlen]; omega
  have e2 : ml - (((c.drop start).take (stop - start)).drop (mi - start)).length = 0 := by
    rw [hdroplen]; omega
  rw [e2, List.take_zero, List.append_nil, List.drop_take, List.drop_drop]
  have e3 : start + (mi - start) = mi := by omega
  rw [e3, List.take_take]
  have e4 : ml ⊓ ((stop - start) - (mi - start)) = ml := by omega
  rw [e4]

/-! ### Claim theorems -/

/-- C10: for every content string and `matchIndex`, `matchLength` with
`matchIndex + matchLength ≤ content.length`, `buildSnippet` returns exactly
one highlight range; the snippet text between that range's start and end
equals the substring of the original content from `matchIndex` to
`matchIndex + matchLength`; and the snippet text is the window
`[matchIndex - 40, matchIndex + matchLength + 40]` clipped to content bounds,
with "..." prepended exactly when clipped on the left and appended exactly
when clipped on the right. -/
theorem c10_snippet_roundtrip (content : String) (mi ml : ℕ)
    (h : mi + ml ≤ content.data.length) :
    ∃ hs,
      (buildSnippet content mi ml).highlights = [(hs, hs + ml)] ∧
      ((buildSnippet content mi ml).text.data.drop hs).take ml
        = (content.data.drop mi).take ml ∧
      (buildSnippet content mi ml).text.data
        = (if CONTEXT_RADIUS < mi then "...".data else [])
          ++ (content.data.drop (mi - CONTEXT_RADIUS)).take
              (min content.data.length (mi + ml + CONTEXT_RADIUS) - (mi - CONTEXT_RADIUS))
          ++ (if mi + ml + CONTEXT_RADIUS < content.data.length then "...".data else []) := by
  refine ⟨(if 0 < mi - CONTEXT_RADIUS then ("...".data : List Char) else []).length
      + (mi - (mi - CONTEXT_RADIUS)), ?_, ?_, ?_⟩
  · rfl
  · show (((if 0 < mi - CONTEXT_RADIUS then ("...".data : List Char) else [])
        ++ (content.data.drop (mi - CONTEXT_RADIUS)).take
            (min content.data.length (mi + ml + CONTEXT_RADIUS) - (mi - CONTEXT_RADIUS))
        ++ (if min content.data.length (mi + ml + CONTEXT_RADIUS) < content.data.length
            then ("...".data : List Char) else [])).drop
          ((if 0 < mi - CONTEXT_RADIUS then ("...".data : List Char) else []).length
            + (mi - (mi - CONTEXT_RADIUS)))).take ml
      = (content.data.drop mi).take ml
    exact snippet_core content.data _ _ mi ml (mi - CONTEXT_RADIUS)
      (min content.data.length (mi + ml + CONTEXT_RADIUS)) (by omega) (by omega)
      (min_le_left _ _)
  · have eL : (if 0 < mi - CONTEXT_RADIUS then ("...".data : List Char) else [])
        = (if CONTEXT_RADIUS < mi then ("...".data : List Char) else []) := by
      by_cases hc : CONTEXT_RADIUS < mi
      · rw [if_pos hc, if_pos (by omega : 0 < mi - CONTEXT_RADIUS)]
      · rw [if_neg hc, if_neg (by omega : ¬ 0 < mi - CONTEXT_RADIUS)]
    have eR : (if min content.data.length (mi + ml + CONTEXT_RADIUS) < content.data.length
          then ("...".data : List Char) else [])
        = (if mi + ml + CONTEXT_RADIUS < content.data.length then ("...".data : List Char)
          else []) := by
      by_cases hc : mi + ml + CONTEXT_RADIUS < content.data.length
      · rw [if_pos hc, if_pos (by omega :
          min content.data.length (mi + ml + CONTEXT_RADIUS) < content.data.length)]
      · rw [if_neg hc, if_neg (by omega :
          ¬ min content.data.length (mi + ml + CONTEXT_RADIUS) < content.data.length)]
    show (if 0 < mi - CONTEXT_RADIUS then ("...".data : List Char) else [])
        ++ (content.data.drop (mi - CONTEXT_RADIUS)).take
            (min content.data.length (mi + ml + CONTEXT_RADIUS) - (mi - CONTEXT_RADIUS))
        ++ (if min content.data.length (mi + ml + CONTEXT_RADIUS) < content.data.length
            then ("...".data : List Char) else [])
      = _
    rw [eL, eR]

/-- C1: soundness — every result of a completed session belongs to a scanned
file whose normalized name or path contains the normalized query, or whose
name fuzzy-matches it (fuzzyScore non-none), or every whitespace token of the
query occurs in the file's normalized content. -/
theorem c1_soundness (query : String) (files : List FileEntry) (r : SearchResult)
    (hr : r ∈ searchResults query files) :
    ∃ f ∈ files, r.path = f.path ∧ r.name = f.name ∧
      (SubstrOf (normalize (trimStr query)).data (normalize f.name).data ∨
       SubstrOf (normalize (trimStr query)).data (normalize f.path).data ∨
       fuzzyScore (normalize (trimStr query)).data (normalize f.name).data ≠ none ∨
       (∃ c, f.content = some c ∧
        ∀ tk ∈ (splitBy Char.isWhitespace (normalize (trimStr query)).data).filter (· ≠ []),
          SubstrOf tk (normalize c).data)) := by
  have hb := mem_scanBuffer_of_mem_searchResults query files r hr
  unfold scanBuffer at hb
  obtain ⟨f, hf, hsome⟩ := List.mem_filterMap.mp hb
  exact ⟨f, hf, scanStep_sound (sessionParams query).1 (sessionParams query).2.1
    (sessionParams query).2.2 f r hsome⟩

/-- C1 witness: the query "todo" against the single file todo.md. -/
theorem c1_soundness_witness :
    (⟨"todo.md", "todo.md", ((1000 : ℤ) : ℚ), [⟨"Filename match", []⟩], MatchType.name⟩
        : SearchResult) ∈ searchResults "todo" [⟨"todo.md", "todo.md", some "x"⟩] ∧
    ∃ f ∈ [(⟨"todo.md", "todo.md", some "x"⟩ : FileEntry)],
      (⟨"todo.md", "todo.md", ((1000 : ℤ) : ℚ), [⟨"Filename match", []⟩], MatchType.name⟩
        : SearchResult).path = f.path ∧
      (⟨"todo.md", "todo.md", ((1000 : ℤ) : ℚ), [⟨"Filename match", []⟩], MatchType.name⟩
        : SearchResult).name = f.name ∧
      (SubstrOf (normalize (trimStr "todo")).data (normalize f.name).data ∨
       SubstrOf (normalize (trimStr "todo")).data (normalize f.path).data ∨
       fuzzyScore (normalize (trimStr "todo")).data (normalize f.name).data ≠ none ∨
       (∃ c, f.content = some c ∧
        ∀ tk ∈ (splitBy Char.isWhitespace (normalize (trimStr "todo")).data).filter (· ≠ []),
          SubstrOf tk (normalize c).data)) :=
  ⟨by decide, c1_soundness "todo" [⟨"todo.md", "todo.md", some "x"⟩] _ (by decide)⟩

/-- C2: the final emitted list is sorted by score descending with ties broken
by name ascending, and never exceeds MAX_RESULTS = 200 entries. -/
theorem c2_ordering_truncation (query : String) (files : List FileEntry) :
    (searchResults query files).Sorted ResultLE ∧
    (searchResults query files).length ≤ MAX_RESULTS := by
  unfold searchResults
  constructor
  · exact List.Pairwise.sublist (List.take_sublist _ _)
      (List.sorted_insertionSort ResultLE (scanBuffer query files))
  · exact List.length_take_le _ _

/-- C9: every emitted SearchResult carries between 1 and
MAX_MATCHES_PER_FILE = 3 snippets, both in the result buffer and in the final
list. -/
theorem c9_snippet_count (query : String) (files : List FileEntry) (r : SearchResult)
    (h : r ∈ scanBuffer query files ∨ r ∈ searchResults query files) :
    1 ≤ r.matches.length ∧ r.matches.length ≤ MAX_MATCHES_PER_FILE := by
  have hb : r ∈ scanBuffer query files := by
    rcases h with h | h
    · exact h
    · exact mem_scanBuffer_of_mem_searchResults query files r h
  unfold scanBuffer at hb
  obtain ⟨f, hf, hsome⟩ := List.mem_filterMap.mp hb
  exact scanStep_matches_len _ _ _ f r hsome

/-- C9 witness: the todo.md name-match result carries exactly one snippet. -/
theorem c9_snippet_count_witness :
    1 ≤ (⟨"todo.md", "todo.md", ((1000 : ℤ) : ℚ), [⟨"Filename match", []⟩],
        MatchType.name⟩ : SearchResult).matches.length ∧
    (⟨"todo.md", "todo.md", ((1000 : ℤ) : ℚ), [⟨"Filename match", []⟩],
        MatchType.name⟩ : SearchResult).matches.length ≤ MAX_MATCHES_PER_FILE :=
  c9_snippet_count "todo" [⟨"todo.md", "todo.md", some "x"⟩] _ (Or.inl (by decide))

/-- C3 counterexample: for the query "fb" and the file "foo bar.md", the
fuzzy name scoring yields a positive score (so the claim demands an immediate
Name/Path emission and no content search), yet the worker does enter the
content-read path, and with this content it emits nothing at all. -/
theorem c3_counterexample :
    0 < (nameStage (sessionParams "fb").1
        ⟨"foo bar.md", "foo bar.md", some "no tokens here"⟩).1 ∧
    (scanFile "fb" ⟨"foo bar.md", "foo bar.md", some "no tokens here"⟩).readContent = true ∧
    (scanFile "fb" ⟨"foo bar.md", "foo bar.md", some "no tokens here"⟩).result = none := by
  decide

/-- C3 (amended): if the name/path containment or fuzzy scoring yields a
positive score AND every whitespace token of the query occurs in the
normalized name or path, the worker emits a SearchResult immediately with
matchType Name or Path and performs no content work for that file (otherwise
a positive-scoring file still proceeds to the content search). -/
theorem c3_short_circuit_amended (query : String) (f : FileEntry)
    (hskip : SKIP_EXTENSIONS.contains (extension f.name) = false)
    (hcov : namePathCoversAll (sessionParams query).2.1 f = true)
    (hpos : 0 < (nameStage (sessionParams query).1 f).1) :
    scanFile query f
      = ⟨some ⟨f.path, f.name, ((nameStage (sessionParams query).1 f).1 : ℚ),
          [⟨"Filename match", []⟩], (nameStage (sessionParams query).1 f).2⟩, false⟩ ∧
    ((nameStage (sessionParams query).1 f).2 = MatchType.name ∨
     (nameStage (sessionParams query).1 f).2 = MatchType.path) := by
  refine ⟨?_, nameStage_pos_type _ f hpos⟩
  unfold scanFile
  exact scanStep_shortCircuit _ _ _ f hskip hcov hpos

/-- C3 witness: "todo" against todo.md short-circuits with a name match. -/
theorem c3_short_circuit_amended_witness :
    scanFile "todo" ⟨"todo.md", "todo.md", some "x"⟩
      = ⟨some ⟨"todo.md", "todo.md",
          ((nameStage (sessionParams "todo").1 ⟨"todo.md", "todo.md", some "x"⟩).1 : ℚ),
          [⟨"Filename match", []⟩],
          (nameStage (sessionParams "todo").1 ⟨"todo.md", "todo.md", some "x"⟩).2⟩, false⟩ ∧
    ((nameStage (sessionParams "todo").1 ⟨"todo.md", "todo.md", some "x"⟩).2
        = MatchType.name ∨
     (nameStage (sessionParams "todo").1 ⟨"todo.md", "todo.md", some "x"⟩).2
        = MatchType.path) :=
  c3_short_circuit_amended "todo" ⟨"todo.md", "todo.md", some "x"⟩ (by decide) (by decide)
    (by decide)

/-- C4 counterexample: the greedy fuzzy score is not non-decreasing in the
length of the longest contiguous matched run: for q = "abc", a target with a
full run of 3 at offset 35 scores 27 while a target with a longest run of 2
scores 55. -/
theorem c4_counterexample :
    longestRun "abc".data (List.replicate 35 'z' ++ "abc".data) = 3 ∧
    longestRun "abc".data ('a' :: (List.replicate 30 'z' ++ "bc".data)) = 2 ∧
    fuzzyScore "abc".data (List.replicate 35 'z' ++ "abc".data) = some 27 ∧
    fuzzyScore "abc".data ('a' :: (List.replicate 30 'z' ++ "bc".data)) = some 55 ∧
    (27 : ℤ) < 55 := by
  decide

/-- C4 (amended): fuzzyScore(q, t) is none iff q is not a subsequence of t;
otherwise, for nonempty q, it is a positive number; and the score is
non-decreasing in the length of the matched run for queries matched as one
contiguous run at a fixed start offset (not across targets with different gap
structure, and the empty query may score zero). -/
theorem c4_fuzzy_amended :
    (∀ q t : List Char, fuzzyScore q t = none ↔ ¬ q.Sublist t) ∧
    (∀ q t : List Char, q ≠ [] → ∀ v, fuzzyScore q t = some v → 0 < v) ∧
    (∀ p L₁ L₂ : ℕ, 1 ≤ L₁ → L₁ ≤ L₂ →
      ∃ v₁ v₂,
        fuzzyScore (List.replicate L₁ 'a') (List.replicate p 'z' ++ List.replicate L₁ 'a')
          = some v₁ ∧
        fuzzyScore (List.replicate L₂ 'a') (List.replicate p 'z' ++ List.replicate L₂ 'a')
          = some v₂ ∧
        v₁ ≤ v₂) := by
  refine ⟨fuzzyScore_eq_none_iff, fuzzyScore_pos, ?_⟩
  intro p L₁ L₂ h1 h12
  exact ⟨runScoreFormula p L₁, runScoreFormula p L₂, fuzzyScore_repl_run p L₁ h1,
    fuzzyScore_repl_run p L₂ (le_trans h1 h12), runScoreFormula_mono p L₁ L₂ h1 h12⟩

/-- C4 witness: the amended statement at concrete inputs ("ab" vs "cab";
runs of length 1 and 3 at offset 2). -/
theorem c4_fuzzy_amended_witness :
    (fuzzyScore "ab".data "cab".data = none ↔ ¬ ("ab".data).Sublist "cab".data) ∧
    (∀ v, fuzzyScore "ab".data "cab".data = some v → 0 < v) ∧
    (∃ v₁ v₂,
      fuzzyScore (List.replicate 1 'a') (List.replicate 2 'z' ++ List.replicate 1 'a')
        = some v₁ ∧
      fuzzyScore (List.replicate 3 'a') (List.replicate 2 'z' ++ List.replicate 3 'a')
        = some v₂ ∧
      v₁ ≤ v₂) :=
  ⟨c4_fuzzy_amended.1 "ab".data "cab".data,
   c4_fuzzy_amended.2.1 "ab".data "cab".data (by decide),
   c4_fuzzy_amended.2.2 2 1 3 (by decide) (by decide)⟩

/-- C5 counterexample: "milk eggs" against notes.md (content
"buy milk and eggs") is a token-only content hit with two tokens — the whole
query is not in the content, both tokens are, and no name/path score applies.
The claim predicts a score of 50 + 30 = 80; the emitted score is 60. -/
theorem c5_counterexample :
    idxOfSub (normalize "buy milk and eggs").data (sessionParams "milk eggs").1.data
      = none ∧
    ((sessionParams "milk eggs").2.1.all
      fun tk => (idxOfSub (normalize "buy milk and eggs").data tk).isSome) = true ∧
    (sessionParams "milk eggs").2.1.length = 2 ∧
    (nameStage (sessionParams "milk eggs").1
        ⟨"notes.md", "notes.md", some "buy milk and eggs"⟩).1 = 0 ∧
    ((scanFile "milk eggs" ⟨"notes.md", "notes.md", some "buy milk and eggs"⟩).result.map
      SearchResult.score) = some 60 ∧
    (60 : ℚ) ≠ 50 + 30 * (2 - 1) := by
  refine ⟨by decide, by decide, by decide, by decide, ?_, by norm_num⟩
  have h : ((scanFile "milk eggs"
        ⟨"notes.md", "notes.md", some "buy milk and eggs"⟩).result.map
      SearchResult.score) = some ((((0 : ℤ) : ℚ) + 30) + 30) := rfl
  rw [h]
  norm_num

/-- C5 (amended): a token-only content hit (whole query absent from the
content, every token present, zero name-stage score) is emitted with score
30 per matched token and one snippet per matched token, both capped at
MAX_MATCHES_PER_FILE = 3; there is no base-50 component. -/
theorem c5_token_only_amended (query : String) (f : FileEntry) (content : String)
    (hskip : SKIP_EXTENSIONS.contains (extension f.name) = false)
    (hcontent : f.content = some content)
    (hssc : (sessionParams query).2.2 = true)
    (hname : (nameStage (sessionParams query).1 f).1 = 0)
    (hall : ∀ tk ∈ (sessionParams query).2.1,
      (idxOfSub (normalize content).data tk).isSome = true)
    (hwhole : idxOfSub (normalize content).data (sessionParams query).1.data = none)
    (hne : (sessionParams query).2.1 ≠ []) :
    ∃ r, (scanFile query f).result = some r ∧
      r.score = 30 * ((min (sessionParams query).2.1.length MAX_MATCHES_PER_FILE : ℕ) : ℚ) ∧
      r.matches.length = min (sessionParams query).2.1.length MAX_MATCHES_PER_FILE := by
  have hk : 0 < (sessionParams query).2.1.length := List.length_pos.mpr hne
  have hhead : contentHead (sessionParams query).1 (nameStage (sessionParams query).1 f).1
      (nameStage (sessionParams query).1 f).2 content
      = ([], (((nameStage (sessionParams query).1 f).1 : ℤ) : ℚ),
         (nameStage (sessionParams query).1 f).2) := by
    unfold contentHead
    rw [hwhole]
  have hscan : (scanFile query f).result
      = contentStage (sessionParams query).1 (sessionParams query).2.1
          (nameStage (sessionParams query).1 f).1 (nameStage (sessionParams query).1 f).2
          f content := by
    unfold scanFile scanStep
    rw [hskip]
    simp only [Bool.false_eq_true, if_false]
    have hcovfalse : (namePathCoversAll (sessionParams query).2.1 f
        && decide (0 < (nameStage (sessionParams query).1 f).1)) = false := by
      rw [hname]
      simp
    rw [hcovfalse]
    simp only [Bool.false_eq_true, if_false]
    rw [hssc]
    rw [if_pos rfl, hcontent]
  have hstage : contentStage (sessionParams query).1 (sessionParams query).2.1
      (nameStage (sessionParams query).1 f).1 (nameStage (sessionParams query).1 f).2
      f content
      = some ⟨f.path, f.name,
          (contentFinish (sessionParams query).1 (sessionParams query).2.1
            (nameStage (sessionParams query).1 f).1 (nameStage (sessionParams query).1 f).2
            content).2,
          (contentFinish (sessionParams query).1 (sessionParams query).2.1
            (nameStage (sessionParams query).1 f).1 (nameStage (sessionParams query).1 f).2
            content).1,
          (contentHead (sessionParams query).1 (nameStage (sessionParams query).1 f).1
            (nameStage (sessionParams query).1 f).2 content).2.2⟩ := by
    unfold contentStage
    have halltrue : ((sessionParams query).2.1.all
        fun tk => includesL (normalize content).data tk) = true :=
      List.all_eq_true.mpr (fun tk hk => hall tk hk)
    rw [if_pos halltrue]
  obtain ⟨hL, hS⟩ := tokenLoop_all_found (normalize content).data content
    (sessionParams query).2.1 []
    (((nameStage (sessionParams query).1 f).1 : ℤ) : ℚ)
    (by simp [MAX_MATCHES_PER_FILE]) hall
  rcases htl : tokenLoop (normalize content).data content (sessionParams query).2.1 []
      (((nameStage (sessionParams query).1 f).1 : ℤ) : ℚ) with ⟨ms, sc⟩
  rw [htl] at hL hS
  simp only at hL hS
  have h3 : MAX_MATCHES_PER_FILE = 3 := rfl
  have hms : ¬ ms.length = 0 := by
    rw [hL]
    simp only [List.length_nil, Nat.zero_add]
    omega
  have hfinish : contentFinish (sessionParams query).1 (sessionParams query).2.1
      (nameStage (sessionParams query).1 f).1 (nameStage (sessionParams query).1 f).2
      content = (ms, sc) := by
    unfold contentFinish
    rw [hhead]
    simp only
    rw [htl]
    simp only
    rw [if_neg hms]
  refine ⟨⟨f.path, f.name, sc, ms,
      (contentHead (sessionParams query).1 (nameStage (sessionParams query).1 f).1
        (nameStage (sessionParams query).1 f).2 content).2.2⟩, ?_, ?_, ?_⟩
  · rw [hscan, hstage, hfinish]
  · show sc = 30 * ((min (sessionParams query).2.1.length MAX_MATCHES_PER_FILE : ℕ) : ℚ)
    rw [hS, hname]
    simp
  · show ms.length = min (sessionParams query).2.1.length MAX_MATCHES_PER_FILE
    rw [hL]
    simp

/-- C5 witness: the amended scoring at the concrete token-only hit
"milk eggs" against notes.md. -/
theorem c5_token_only_amended_witness :
    ∃ r, (scanFile "milk eggs"
        ⟨"notes.md", "notes.md", some "buy milk and eggs"⟩).result = some r ∧
      r.score = 30 * ((min (sessionParams "milk eggs").2.1.length
          MAX_MATCHES_PER_FILE : ℕ) : ℚ) ∧
      r.matches.length = min (sessionParams "milk eggs").2.1.length MAX_MATCHES_PER_FILE :=
  c5_token_only_amended "milk eggs" ⟨"notes.md", "notes.md", some "buy milk and eggs"⟩
    "buy milk and eggs" (by decide) rfl (by decide) (by decide) (by decide) (by decide)
    (by decide)

/-- C6: a callback whose generation differs from the controller's current
generation is discarded (no state mutation, no UI emission); in particular,
once a newer session G2 has started (the current generation has passed G1),
every later G1-tagged result or progress callback leaves the controller
unchanged. -/
theorem c6_cancellation (s0 : CtrlState) (l1 l2 : List CtrlEvent) (g : ℕ) (e : UiEvent)
    (hstale : g < (ctrlRun s0 l1).currentGen) :
    ctrlStep (ctrlRun s0 (l1 ++ l2)) (CtrlEvent.callback g e) = ctrlRun s0 (l1 ++ l2) ∧
    (∀ (s : CtrlState) (g' : ℕ) (e' : UiEvent), g' ≠ s.currentGen →
      ctrlStep s (CtrlEvent.callback g' e') = s) := by
  constructor
  · have hmono : (ctrlRun s0 l1).currentGen ≤ (ctrlRun s0 (l1 ++ l2)).currentGen := by
      rw [ctrlRun_append]
      exact ctrlRun_gen_le _ l2
    exact ctrlStep_stale _ g e (by omega)
  · intro s g' e' h
    exact ctrlStep_stale s g' e' h

/-- C6 witness: after two sessions have started, a results callback tagged
with generation 1 is discarded. -/
theorem c6_cancellation_witness :
    ctrlStep (ctrlRun ⟨0, [], (0, 0), []⟩ ([CtrlEvent.start, CtrlEvent.start] ++ []))
        (CtrlEvent.callback 1 (UiEvent.results []))
      = ctrlRun ⟨0, [], (0, 0), []⟩ ([CtrlEvent.start, CtrlEvent.start] ++ []) ∧
    (∀ (s : CtrlState) (g' : ℕ) (e' : UiEvent), g' ≠ s.currentGen →
      ctrlStep s (CtrlEvent.callback g' e') = s) :=
  c6_cancellation ⟨0, [], (0, 0), []⟩ [CtrlEvent.start, CtrlEvent.start] [] 1
    (UiEvent.results []) (by decide)

/-- C7: a file whose content read fails (and whose scan reaches the content
read) yields no result, and the session's final list is exactly what it would
be without that file — every other file's results are unchanged. -/
theorem c7_read_failure_isolation (query : String) (files : List FileEntry) (i : ℕ)
    (hi : i < files.length) (hfail : files[i].content = none)
    (hread : (scanFile query files[i]).readContent = true) :
    (scanFile query files[i]).result = none ∧
    searchResults query files = searchResults query (files.eraseIdx i) := by
  have hnone : (scanFile query files[i]).result = none :=
    scanStep_failed _ _ _ files[i] hfail hread
  refine ⟨hnone, ?_⟩
  have hbuf : scanBuffer query files = scanBuffer query (files.eraseIdx i) := by
    unfold scanBuffer
    conv_lhs => rw [← List.take_append_drop i files]
    rw [List.eraseIdx_eq_take_drop_succ, List.filterMap_append, List.filterMap_append,
      List.drop_eq_getElem_cons hi,
      @List.filterMap_cons_none FileEntry SearchResult
        (fun fe => (scanFile query fe).result) (files[i]) (List.drop (i + 1) files) hnone]
  unfold searchResults
  rw [hbuf]

/-- C7 witness: a single file with a failing read produces nothing, and the
results equal those of the empty file list. -/
theorem c7_read_failure_isolation_witness :
    (scanFile "zz" ([(⟨"b.md", "b.md", none⟩ : FileEntry)])[0]).result = none ∧
    searchResults "zz" [⟨"b.md", "b.md", none⟩]
      = searchResults "zz" ([(⟨"b.md", "b.md", none⟩ : FileEntry)].eraseIdx 0) :=
  c7_read_failure_isolation "zz" [⟨"b.md", "b.md", none⟩] 0 (by decide) (by decide)
    (by decide)

/-- C8: when the query is empty or whitespace-only, the pending debounce
timer is cancelled, the results are cleared, progress resets to (0, 0), and
no session starts (the generation counter is untouched and no timer is
armed). -/
theorem c8_empty_query_reset (query : String) (files : List FileEntry) (st : ModalState)
    (h : trimStr query = "") :
    queryEffect query files st
      = { st with
            results := []
            isSearching := false
            progress := (0, 0)
            pendingTimer := none } := by
  unfold queryEffect
  rw [if_pos h]

/-- C8 witness: a whitespace-only query resets a busy modal state. -/
theorem c8_empty_query_reset_witness :
    queryEffect " " [] ⟨[], true, (5, 9), 4, some (4, "x")⟩
      = { (⟨[], true, (5, 9), 4, some (4, "x")⟩ : ModalState) with
            results := []
            isSearching := false
            progress := (0, 0)
            pendingTimer := none } :=
  c8_empty_query_reset " " [] ⟨[], true, (5, 9), 4, some (4, "x")⟩ (by decide)

/-- C10 witness: a concrete in-bounds snippet ("hello world", match at 6,
length 5). -/
theorem c10_snippet_roundtrip_witness :
    ∃ hs,
      (buildSnippet "hello world" 6 5).highlights = [(hs, hs + 5)] ∧
      ((buildSnippet "hello world" 6 5).text.data.drop hs).take 5
        = ("hello world".data.drop 6).take 5 ∧
      (buildSnippet "hello world" 6 5).text.data
        = (if CONTEXT_RADIUS < 6 then "...".data else [])
          ++ ("hello world".data.drop (6 - CONTEXT_RADIUS)).take
              (min "hello world".data.length (6 + 5 + CONTEXT_RADIUS) - (6 - CONTEXT_RADIUS))
          ++ (if 6 + 5 + CONTEXT_RADIUS < "hello world".data.length then "...".data
              else []) :=
  c10_snippet_roundtrip "hello world" 6 5 (by decide)

end NotebookSearch
